import Mathlib

/-!
Verification development for the `dir2md` repository (`src/dir2md.py`).

The program converts between a directory of source files and a single
markdown document whose fenced code blocks carry file paths.  This file
gives a shallow embedding of the pure core of `dir2md.py`:

* `default_formatter`  (serializer, lines 37-71 of the source),
* `default_parser`     (parser, lines 100-201), embedded here as
  `defaultParse` / `parseLoop`,
* the `md2dir` unclosed-block policy step (lines 389-401),
* `parse_line_specification` / the line-slicing step of `dir2md`
  (lines 215-235 and 258-269), embedded as `parseLineSpec` /
  `applyLineSpec`.

Python strings are modelled as `List Char`; documents are split into
lines with an embedding of `str.splitlines`.  Python functions that can
raise return `Option` (`none` models the raised exception).
-/

namespace Dir2md

/-- Whitespace character class used by Python's `str.strip()` / `str.isspace()`
and by the regex `\s` class on `str` patterns: ASCII whitespace (space, tab,
LF, CR, VT, FF), the C1 file/group/record/unit separators x1c-x1f, NEL (x85),
NBSP (xa0) and the Unicode space separators. -/
def pyIsSpace (c : Char) : Bool :=
  c = ' ' || c = '\t' || c = '\n' || c = '\r' || c.val = 11 || c.val = 12 ||
  c.val = 28 || c.val = 29 || c.val = 30 || c.val = 31 ||
  c.val = 0x85 || c.val = 0xa0 || c.val = 0x1680 ||
  (0x2000 ≤ c.val && c.val ≤ 0x200a) ||
  c.val = 0x2028 || c.val = 0x2029 || c.val = 0x202f || c.val = 0x205f || c.val = 0x3000

/-- Line-boundary characters of Python's `str.splitlines`: LF, CR, VT, FF,
x1c, x1d, x1e, NEL, LINE SEPARATOR and PARAGRAPH SEPARATOR.  (The pair
CR LF is a single boundary; that is handled by `normCRLF` below.) -/
def isLineBreak (c : Char) : Bool :=
  c = '\n' || c = '\r' || c.val = 11 || c.val = 12 ||
  c.val = 28 || c.val = 29 || c.val = 30 ||
  c.val = 0x85 || c.val = 0x2028 || c.val = 0x2029

/-- Rewrites each (leftmost, non-overlapping) CR LF pair to a single LF, so
that `str.splitlines`'s two-character boundary can be treated as the
one-character boundary LF afterwards. -/
def normCRLF : List Char → List Char
  | [] => []
  | [c] => [c]
  | c :: d :: rest =>
    if c = '\r' ∧ d = '\n' then '\n' :: normCRLF rest
    else c :: normCRLF (d :: rest)

/-- Accumulator pass of `str.splitlines` after CR LF normalisation: `acc`
holds the characters of the current line in reverse.  A final partial line is
emitted only if non-empty (Python emits no empty final line after a trailing
boundary, and splits `""` into `[]`). -/
def pySplitlinesAux (acc : List Char) : List Char → List (List Char)
  | [] => if acc.isEmpty then [] else [acc.reverse]
  | c :: rest =>
    if isLineBreak c then acc.reverse :: pySplitlinesAux [] rest
    else pySplitlinesAux (c :: acc) rest

/-- Python `str.splitlines()`. -/
def pySplitlines (s : List Char) : List (List Char) :=
  pySplitlinesAux [] (normCRLF s)

/-- Python `str.strip()` with no argument: remove leading and trailing
whitespace. -/
def pyStrip (s : List Char) : List Char :=
  ((s.dropWhile pyIsSpace).reverse.dropWhile pyIsSpace).reverse

/-- Python `template.format(arg)` for templates whose only replacement fields
are plain `x7b x7d` slots (the parser is only ever invoked with such
templates; brace escapes and numbered fields are out of scope). -/
def pyFormat : List Char → List Char → List Char
  | [], _ => []
  | [c], _ => [c]
  | c :: d :: rest, arg =>
    if c = '{' ∧ d = '}' then arg ++ pyFormat rest arg
    else c :: pyFormat (d :: rest) arg

/-- Literal text of a path template before its first replacement slot; the
whole template if it has no slot.  This embeds the
`path_replacement_field.format(random_string).split(random_string)[0]` trick
of `_find_path_below` (source lines 111-115), which extracts exactly this
text because the formatted fresh uuid can only occur at the slot. -/
def templateBefore : List Char → List Char
  | [] => []
  | [c] => [c]
  | c :: d :: rest =>
    if c = '{' ∧ d = '}' then [] else c :: templateBefore (d :: rest)

/-- Extension part (with its dot) of `os.path.splitext(path)`, lines 74-76:
taken from the basename after the last `/`, where the basename's leading dots
do not start an extension. -/
def splitextExt (path : List Char) : List Char :=
  let base := (path.reverse.takeWhile (fun c => c ≠ '/')).reverse
  let stem := base.dropWhile (fun c => c = '.')
  if stem.any (fun c => c = '.') then
    '.' :: (stem.reverse.takeWhile (fun c => c ≠ '.')).reverse
  else []

/-- Source `infer_language` (lines 74-82): map the lower-cased extension to a
language tag, defaulting to the empty string. -/
def infer_language (path : List Char) : List Char :=
  let ext := (splitextExt path).map Char.toLower
  if ext = ".py".data then "python".data
  else if ext = ".rs".data then "rust".data
  else []

/-- Source `comment_prefix_for_language` (lines 85-91). -/
def comment_prefix_for_language (language : List Char) : List Char :=
  if language = "python".data then "#".data
  else if language = "rust".data then "//".data
  else []

/-- Match of the pattern `\n\s*` + `k` backticks at the start of a suffix: a
newline, then (since a backtick is not whitespace, the greedy `\s*` can be
taken maximal) skipping all whitespace must land on at least `k`
backticks. -/
def nlTicksAt (k : Nat) : List Char → Bool
  | [] => false
  | c :: r =>
    c = '\n' && k ≤ ((r.dropWhile pyIsSpace).takeWhile (fun c => c = '`')).length

/-- Does `text` match the regex `\n\s*` followed by `k` backticks somewhere?
This is the search the formatter's tick-lengthening loop performs (source
lines 45 and 59, `re.search(rf"\n\s*{ticks}", text)` with `ticks` a run of
`k` backticks). -/
def hasNlWsTicks (text : List Char) (k : Nat) : Bool :=
  text.tails.any (nlTicksAt k)

/-- Fuelled form of the formatter's `while re.search(...): ticks += "`"` loop
(source lines 44-46 and 58-60): starting from `k` backticks, lengthen while
the text still matches.  `hasNlWsTicks text k` forces `k ≤ text.length`, so
fuel `text.length + 1` (used by `ticksFor`) never runs out before the loop
exits. -/
def ticksLoopAux (text : List Char) : Nat → Nat → Nat
  | 0, k => k
  | fuel + 1, k => if hasNlWsTicks text k then ticksLoopAux text fuel (k + 1) else k

/-- Number of backticks the serializer chooses for the fence around `text`. -/
def ticksFor (text : List Char) : Nat :=
  ticksLoopAux text (text.length + 1) 3

/-- Record for one file, source lines 29-34.  The source `NamedTuple` also
carries `start`, `end` (never read by the parser or formatter) and a
`token_count` computed by the external `tiktoken` encoder (display-only);
those fields are not modelled. -/
structure TextFile where
  text : List Char
  path : List Char
deriving DecidableEq, Repr

/-- Location of the path line relative to the fenced block. -/
inductive PathLocation where
  | above
  | below
deriving DecidableEq, Repr

/-- Source `default_formatter` (lines 37-71) with
`include_token_count = False` (the `True` branch only adds the external
token-count attribute to the info string). -/
def default_formatter (tf : TextFile) (loc : PathLocation) : List Char :=
  let ticks := List.replicate (ticksFor tf.text) '`'
  let language := infer_language tf.path
  match loc with
  | .above =>
    tf.path ++ ('\n' :: '\n' :: []) ++ ticks ++ language ++ ['\n'] ++
      tf.text ++ ticks ++ ('\n' :: '\n' :: [])
  | .below =>
    ticks ++ language ++ ['\n'] ++
      comment_prefix_for_language language ++ (' ' :: tf.path) ++ ['\n'] ++
      tf.text ++ ticks ++ ('\n' :: '\n' :: [])

/-- Serialization of an ordered record sequence with the path placed below
the opening fence (the concatenation performed by `dir2md`, lines 307-339,
before its final cosmetic `rstrip`). -/
def serializeBelow (rs : List TextFile) : List Char :=
  (rs.map (fun r => default_formatter r .below)).foldr (fun a b => a ++ b) []

/-- Source `_find_path_above` (lines 102-106): `text` is the single line
just above the opening fence; its stripped form is returned as the path
whenever formatting the template with it yields a non-empty string. -/
def find_path_above (tmpl : List Char) (text : List Char) : List Char :=
  let ls := pySplitlines text
  match ls.getLast? with
  | none => []
  | some last => if (pyFormat tmpl (pyStrip last)).isEmpty then [] else pyStrip last

/-- Source `_find_path_below` (lines 108-120): if the first line of the
captured block starts with `comment-prefix`, a space and the template's
literal leading text, that line is stripped from the block and everything on
it after `comment-prefix` and the space is the (stripped) path. -/
def find_path_below (tmpl : List Char) (language : List Char) (code : List Char) :
    List Char × List Char :=
  let cp := comment_prefix_for_language language
  match pySplitlines code with
  | [] => ([], code)
  | l0 :: restL =>
    if (cp ++ ' ' :: templateBefore tmpl).isPrefixOf l0 then
      (pyStrip (l0.drop (cp.length + 1)), List.intercalate ['\n'] restL)
    else ([], code)

/-- Path-resolution step of the parser for one completed block, source lines
176-185.  `prev` is the line immediately above the opening fence, or `none`
when the fence is the document's very first line: Python guards both uses of
`lines[start - 1]` with `start > 0`, so with `prev = none` neither the
primary `above` search nor the fallback to `above` ever runs and the last
line of the document is never reached through negative indexing. -/
def resolveBlockPath (tmpl : List Char) (loc : PathLocation)
    (prev : Option (List Char)) (language code : List Char) :
    List Char × List Char :=
  match loc, prev with
  | .above, some ab =>
    let p := find_path_above tmpl ab
    if p = [] then find_path_below tmpl language code else (p, code)
  | _, _ =>
    let pc := find_path_below tmpl language code
    if pc.1 = [] then
      match prev with
      | some ab => (find_path_above tmpl ab, pc.2)
      | none => pc
    else pc

/-- Inner `while True` loop of the parser (source lines 166-172), phrased on
the suffix of lines after the opening fence: the returned offset is one past
the first line starting with `ticks`, or the length of the suffix when no
line closes the fence (Python leaves `i` at `len(lines)` in that case). -/
def findCloseOff (ticks : List Char) : List (List Char) → Nat
  | [] => 0
  | l :: ls => if ticks.isPrefixOf l then 1 else findCloseOff ticks ls + 1

/-- State of the scanning loop of `default_parser` between two iterations:
`rest` is the suffix of unread lines, `prev` the last line already read
(`none` before any line is read, so `prev = some l` exactly when the Python
index satisfies `start > 0` and `lines[start - 1] = l`), and `acc`,
`missing`, `unclosed` carry `code_blocks`, `missing_path_count` and
`last_code_block_is_unclosed`. -/
structure ScanState where
  prev : Option (List Char)
  rest : List (List Char)
  acc : List TextFile
  missing : Nat
  unclosed : Bool
deriving DecidableEq, Repr

/-- Body of one iteration of the scanning loop of `default_parser` (source
lines 155-196), for current line `line` followed by `rest1`.  On a line that
does not open a fence the scan just advances (line 196).  On an opening
fence: read the tick run and the info string's first token, scan for the
closing line, join the captured lines (`lines[start+1 : i-1]`, which in the
unclosed case `i = len(lines)` drops the document's final line), resolve the
path, and either raise `ValueError` (`none`; missing path with
`ignore_missing_path` false) or append the record — the append on line 194
is unconditional, so a missing-path block is appended with an empty path.
`last_code_block_is_unclosed` is set (line 191-192) only in the
missing-path-ignored branch, when the document is exhausted and its last
line does not start with the ticks. -/
def parseStep (tmpl : List Char) (loc : PathLocation) (ign : Bool)
    (prev : Option (List Char)) (line : List Char) (rest1 : List (List Char))
    (acc : List TextFile) (missing : Nat) (unclosed : Bool) : Option ScanState :=
  if ("```".data).isPrefixOf line then
    let ticks := line.takeWhile (fun c => c = '`')
    let restOfLine := pyStrip (line.drop ticks.length)
    let language := restOfLine.takeWhile (fun c => c ≠ ' ')
    let off := findCloseOff ticks rest1
    let code0 := List.intercalate ['\n'] (rest1.take (off - 1))
    let pc := resolveBlockPath tmpl loc prev language code0
    let lastSeen := (rest1.take off).getLastD line
    let remaining := rest1.drop off
    if pc.1 = [] then
      if ign = false then none
      else
        let unclosed2 :=
          if remaining = [] ∧ ticks.isPrefixOf lastSeen = false then true else unclosed
        some ⟨some lastSeen, remaining, acc ++ [⟨pc.2, pc.1⟩], missing + 1, unclosed2⟩
    else
      some ⟨some lastSeen, remaining, acc ++ [⟨pc.2, pc.1⟩], missing, unclosed⟩
  else
    some ⟨some line, rest1, acc, missing, unclosed⟩

/-- Main scanning loop of `default_parser` (source lines 154-196): iterate
`parseStep` until the lines are exhausted.  A raised `ValueError` is `none`.
`fuel` bounds the number of iterations; every iteration consumes at least
one line, so the caller's `fuel = lines.length` never runs out
(`parseLoop_fuel` below makes the result independent of any sufficient
fuel). -/
def parseLoop (tmpl : List Char) (loc : PathLocation) (ign : Bool) :
    Nat → Option (List Char) → List (List Char) → List TextFile → Nat → Bool →
    Option (List TextFile × Bool × Nat)
  | _, _, [], acc, missing, unclosed => some (acc, unclosed, missing)
  | 0, _, _ :: _, _, _, _ => none
  | fuel + 1, prev, line :: rest1, acc, missing, unclosed =>
    match parseStep tmpl loc ign prev line rest1 acc missing unclosed with
    | none => none
    | some st => parseLoop tmpl loc ign fuel st.prev st.rest st.acc st.missing st.unclosed

/-- Result of a parse, source lines 94-97. -/
structure ParseResult where
  code_blocks : List TextFile
  last_code_block_is_unclosed : Bool
deriving DecidableEq, Repr

/-- The parser (source `default_parser`), also exposing the
`missing_path_count` that the source prints as the skipped-blocks warning
(lines 198-199).  `none` models the raised `ValueError`. -/
def defaultParseFull (s : List Char) (tmpl : List Char) (loc : PathLocation)
    (ign : Bool) : Option (List TextFile × Bool × Nat) :=
  let lines := pySplitlines s
  parseLoop tmpl loc ign lines.length none lines [] 0 false

/-- Source `default_parser` (lines 100-201): scan `s` line by line for
backtick-fenced blocks and resolve a path for each. -/
def defaultParse (s : List Char) (tmpl : List Char) (loc : PathLocation)
    (ign : Bool) : Option ParseResult :=
  match defaultParseFull s tmpl loc ign with
  | none => none
  | some (blocks, unclosed, _) => some ⟨blocks, unclosed⟩

/-- Unclosed-block policy of `md2dir`, source lines 380 and 389-401. -/
inductive OnUnclosed where
  | proceed
  | omit_last_line
  | skip
  | error
deriving DecidableEq, Repr

/-- Policy application of `md2dir` (source lines 389-401).  `TextFile` is a
`NamedTuple`, so the `omit_last_line` branch's attribute assignment
`parse_result.code_blocks[-1].text = ...` (line 394) raises
`AttributeError`; that raise is modelled as `none`.  The `error` branch's
`ValueError` is likewise `none`.  (The flag is only ever set right before a
block is appended, so `code_blocks` is non-empty whenever it is true and the
`[-1]` / `pop()` accesses themselves cannot fail.) -/
def md2dirApply (pr : ParseResult) (ou : OnUnclosed) : Option (List TextFile) :=
  if pr.last_code_block_is_unclosed then
    match ou with
    | .proceed => some pr.code_blocks
    | .omit_last_line => none
    | .skip => some pr.code_blocks.dropLast
    | .error => none
  else some pr.code_blocks

/-- Parsing plus policy application of `md2dir` (source lines 377-403; the
subsequent `save_dir` call performs only file I/O). -/
def md2dir (s : List Char) (tmpl : List Char) (loc : PathLocation) (ign : Bool)
    (ou : OnUnclosed) : Option (List TextFile) :=
  match defaultParse s tmpl loc ign with
  | none => none
  | some pr => md2dirApply pr ou

/-- One term of a line specification, source lines 215-235: a bare (possibly
negative) index or a Python slice with optional endpoints. -/
inductive LineIndex where
  | single (i : Int)
  | slice (a b : Option Int)
deriving DecidableEq, Repr

/-- Digits of a decimal numeral. -/
def parseNatDigits (s : List Char) : Option Nat :=
  if s = [] then none
  else if s.all (fun c => c.isDigit) then
    some (s.foldl (fun n c => n * 10 + (c.toNat - 48)) 0)
  else none

/-- Integer literal, with surrounding spaces allowed (Python's `eval` ignores
them inside a subscript). -/
def parseIntLit (s : List Char) : Option Int :=
  let t := ((s.dropWhile (fun c => c = ' ')).reverse.dropWhile (fun c => c = ' ')).reverse
  match t with
  | '-' :: ds => (parseNatDigits ds).map (fun n => -(n : Int))
  | ds => (parseNatDigits ds).map (fun n => (n : Int))

/-- Optional integer literal: all-spaces means the endpoint is omitted
(`slice(None, ...)`). -/
def parseOptIntLit (s : List Char) : Option (Option Int) :=
  if s.all (fun c => c = ' ') then some none
  else (parseIntLit s).map some

/-- One subscript term: `i` or `a:b`. -/
def parseLineSpecItem (s : List Char) : Option LineIndex :=
  match s.splitOn ':' with
  | [t] => (parseIntLit t).map LineIndex.single
  | [a, b] => do
    let x ← parseOptIntLit a
    let y ← parseOptIntLit b
    pure (LineIndex.slice x y)
  | _ => none

/-- Source `parse_line_specification` (lines 215-235).  The source delegates
to Python's `eval` of the subscript expression `x[...]`; this embedding
covers the single-term subscripts it is exercised with here — an integer
`[i]` (giving `[i]`) and a slice `[a:b]` (giving `[slice(a, b)]`).  The
comma forms that `eval` turns into tuples or lists are not modelled
(`none`). -/
def parseLineSpec (s : List Char) : Option (List LineIndex) :=
  match s with
  | '[' :: rest =>
    if rest.getLast? = some ']' then
      let inner := rest.dropLast
      if inner.any (fun c => c = ',') then none
      else (parseLineSpecItem inner).map (fun it => [it])
    else none
  | _ => none

/-- Python list slicing `l[a:b]` with step 1: negative endpoints count from
the end, endpoints are clamped to the list, `None` endpoints mean the
corresponding extreme. -/
def pySliceList {α : Type} (l : List α) (a b : Option Int) : List α :=
  let n : Int := l.length
  let lo := match a with
    | none => 0
    | some x => if x < 0 then max (n + x) 0 else min x n
  let hi := match b with
    | none => n
    | some x => if x < 0 then max (n + x) 0 else min x n
  (l.take hi.toNat).drop lo.toNat

/-- Python indexing `l[i]` with a possibly negative index; `none` models the
`IndexError` that `dir2md` catches and skips (source lines 265-268). -/
def pyIndexGet {α : Type} (l : List α) (i : Int) : Option α :=
  let j := if i < 0 then (l.length : Int) + i else i
  if h : j.toNat < l.length ∧ 0 ≤ j then some (l.get ⟨j.toNat, h.1⟩) else none

/-- Line-selection step of `dir2md` (source lines 258-269): slices extend the
selection by Python slicing, bare indices append the indexed line, and an
out-of-range bare index is skipped. -/
def applyLineSpec {α : Type} (l : List α) (spec : List LineIndex) : List α :=
  spec.foldl
    (fun acc it =>
      match it with
      | .slice a b => acc ++ pySliceList l a b
      | .single i =>
        match pyIndexGet l i with
        | some x => acc ++ [x]
        | none => acc)
    []

/-- Drop the last element of a line list when it is the empty line.  When a
captured block is re-split by `_find_path_below`, exactly one trailing empty
line of the join is lost; this operation describes that loss. -/
def stripLastEmpty (ls : List (List Char)) : List (List Char) :=
  if ls.getLast? = some [] then ls.dropLast else ls

/-- Text that parsing recovers for a serialized record `r`: the lines of
`r.text` re-joined with `\n` after the join/split round through the captured
block, which loses one trailing empty line. -/
def parsedTextOf (r : TextFile) : List Char :=
  List.intercalate ['\n'] (stripLastEmpty (pySplitlines r.text))

/-- Trailing-newline normalization: drop the trailing run of `\n`
characters.  The spec's round-trip property compares texts after trailing
newlines are normalized away. -/
def normNl (s : List Char) : List Char :=
  (s.reverse.dropWhile (fun c => c = '\n')).reverse

/-- Validity of a path for the round-trip statement: non-empty, unchanged by
`str.strip()` (the parser strips the recovered path) and free of
line-boundary characters. -/
abbrev goodPath (p : List Char) : Prop :=
  p ≠ [] ∧ pyStrip p = p ∧ ∀ c ∈ p, isLineBreak c = false

/-- Texts for which the below-mode round trip is exact: ending in a newline
(as `dir2md` guarantees before formatting, lines 272-273), using `\n` as the
only line boundary, and not opening with a three-backtick run (a backtick
run on the very first line escapes the formatter's `\n`-anchored
tick-lengthening search; see the C4 counterexample). -/
abbrev goodText (t : List Char) : Prop :=
  t.getLast? = some '\n' ∧ (∀ c ∈ t, isLineBreak c = true → c = '\n') ∧
    ("```".data).isPrefixOf t = false

/-- Ten concrete one-character lines, used to witness the truncation
property on a ten-line file. -/
def tenLines : List (List Char) :=
  ["a".data, "b".data, "c".data, "d".data, "e".data,
   "f".data, "g".data, "h".data, "i".data, "j".data]

/-- Fence the serializer chooses for a record's text. -/
def ticksOf (r : TextFile) : List Char :=
  List.replicate (ticksFor r.text) '`'

/-- Opening fence line the below-mode serializer emits for a record. -/
def openLineOf (r : TextFile) : List Char :=
  ticksOf r ++ infer_language r.path

/-- Commented path line the below-mode serializer emits for a record. -/
def commentLineOf (r : TextFile) : List Char :=
  comment_prefix_for_language (infer_language r.path) ++ ' ' :: r.path

/-- Lines the below-mode serialization of a record contributes to the
document: the opening fence line, the commented path line, the text's own
lines, the closing fence line and the separating blank line. -/
def blockLinesOf (r : TextFile) : List (List Char) :=
  openLineOf r :: commentLineOf r :: (pySplitlines r.text ++ [ticksOf r, []])

/-- Claim C10: when the opening fence is the very first line of the document
there is no preceding line (`prev = none`, the embedding of Python's
`start > 0` guard being false), and path resolution uses only the below
rule — both the primary above search and the fallback to above are skipped,
for either configured path location, so the document's last line is never
consulted as an "above" path line. -/
theorem first_line_fence_uses_below_only (tmpl : List Char) (loc : PathLocation)
    (language code : List Char) :
    resolveBlockPath tmpl loc none language code = find_path_below tmpl language code := by
  cases loc <;> · simp only [resolveBlockPath]; split <;> rfl

/-- Claim C2 (code bug): parsing the exact document
`"out.py\n\n```python\nx = 1\n```\n\n"` raises `ValueError` (no path is
found: the line immediately above the fence is the blank line, and the block
has no below comment line), in both path-location modes, instead of
producing the record the spec's example promises. -/
theorem c2_example_input_raises :
    defaultParse "out.py\n\n```python\nx = 1\n```\n\n".data "{}".data .below false = none ∧
    defaultParse "out.py\n\n```python\nx = 1\n```\n\n".data "{}".data .above false = none := by
  constructor <;> decide

/-- Claim C3 (code bug): with `ignore_missing_path = true`, a block whose
path cannot be resolved is NOT dropped — it is appended to the output with
an empty path (the warning the source prints counts it as "skipped", but the
unconditional `code_blocks.append` on line 194 keeps it).  The reported
missing-path count is 1. -/
theorem c3_missing_path_block_emitted :
    defaultParseFull "```python\nx = 1\n```\n".data "{}".data .below true =
      some ([⟨"x = 1".data, []⟩], false, 1) := by
  decide

/-- Claim C5 (counterexample): the document `"```python\n# out.py\nx = 1"`
ends while inside an unclosed fence and the block's path resolves (to
`out.py`), yet `last_code_block_is_unclosed` is `false` — the source only
sets the flag in the missing-path branch — and the captured text is `""`,
not everything to the end of the document: the capture `lines[start+1:i-1]`
drops the document's final line `"x = 1"`, and what remains is consumed as
the path comment. -/
theorem c5_counterexample :
    defaultParse "```python\n# out.py\nx = 1".data "{}".data .below false =
      some ⟨[⟨[], "out.py".data⟩], false⟩ := by
  decide

/-- Claim C6 (code bug): on a document whose last block is unclosed (and
pathless, which is the only way the flag is ever set), the parse sets the
flag, and `md2dir` with the `omit_last_line` policy then raises
`AttributeError`: line 394 assigns to the `text` attribute of a `NamedTuple`
instance, which is immutable.  No output record with the last line dropped
is ever produced. -/
theorem c6_omit_last_line_raises :
    defaultParse "```python\nx = 1\ny".data "{}".data .below true =
      some ⟨[⟨"x = 1".data, []⟩], true⟩ ∧
    md2dir "```python\nx = 1\ny".data "{}".data .below true .omit_last_line = none := by
  constructor <;> decide

/-- Claim C7 (counterexample): a document whose only fenced block uses tilde
fences is parsed to zero records — the scanner recognises only lines
starting with three backticks (source line 156), so the tilde block's path
`out.py` never becomes a record. -/
theorem c7_counterexample :
    defaultParse "~~~python\n# out.py\nx = 1\n~~~\n".data "{}".data .below false =
      some ⟨[], false⟩ := by
  decide

/-- Claim C8 (counterexample): with `pathTemplate = "path: {}"` and
`pathLocation = above`, a preceding line `"foo.py"` that lacks the
template's literal text is still accepted as the path (no inverse of the
template is applied — the source merely formats the template with the line
and checks the result is non-empty), and a matching line `"path: foo.py"`
yields the whole line as the path, with the literal text not stripped. -/
theorem c8_counterexample :
    defaultParse "foo.py\n```python\nx = 1\n```".data "path: {}".data .above false =
      some ⟨[⟨"x = 1".data, "foo.py".data⟩], false⟩ ∧
    defaultParse "path: foo.py\n```python\nx = 1\n```".data "path: {}".data .above false =
      some ⟨[⟨"x = 1".data, "path: foo.py".data⟩], false⟩ := by
  constructor <;> decide

/-- Claim C1 (counterexample): the single record with path `a.py` and text
`"```\n"` (a line of three backticks — permitted by the claim, which allows
arbitrary text including runs of backticks) does not round-trip: the
formatter's tick-lengthening regex `\n\s*` + ticks cannot see a backtick run
on the first line of the text, so the block is fenced with three backticks,
the text's own line closes the fence early, and parsing the serialization
yields two records, neither with the original text. -/
theorem c1_counterexample :
    defaultParse (serializeBelow [⟨"```\n".data, "a.py".data⟩]) "{}".data .below false =
      some ⟨[⟨[], "a.py".data⟩, ⟨[], "```".data⟩], false⟩ := by
  decide

/-- Claim C4 (counterexample): for the text `"```\n"`, whose first line
consists of exactly three backticks, the serializer chooses a fence of
exactly three backticks — not strictly more — because the search pattern
`\n\s*` + ticks requires a newline before the run and the first line of the
text has none. -/
theorem c4_counterexample :
    ticksFor "```\n".data = 3 ∧ ¬ 3 < ticksFor "```\n".data := by
  constructor <;> decide


/-- Strings without CR are unchanged by CR LF normalisation. -/
theorem normCRLF_eq_self : ∀ {s : List Char}, (∀ c ∈ s, c ≠ '\r') → normCRLF s = s
  | [], _ => rfl
  | [c], _ => rfl
  | c :: d :: rest, h => by
    have hc : c ≠ '\r' := h c (by simp)
    rw [normCRLF, if_neg (by simp [hc]),
      normCRLF_eq_self (fun x hx => h x (List.mem_cons_of_mem _ hx))]

/-- Unfolding equation of `pySplitlinesAux` at a cons cell. -/
theorem pySplitlinesAux_cons (acc : List Char) (c : Char) (rest : List Char) :
    pySplitlinesAux acc (c :: rest) =
      if isLineBreak c then acc.reverse :: pySplitlinesAux [] rest
      else pySplitlinesAux (c :: acc) rest := rfl

/-- Splitting distributes over an append at a LF boundary. -/
theorem pySplitlinesAux_append_nl :
    ∀ (a : List Char), a.getLast? = some '\n' → ∀ (acc b : List Char),
      pySplitlinesAux acc (a ++ b) =
        pySplitlinesAux acc a ++ pySplitlinesAux [] b := by
  intro a
  induction a with
  | nil => intro h; simp at h
  | cons c rest ih =>
    intro h acc b
    cases rest with
    | nil =>
      have hc : c = '\n' := by simpa using h
      subst hc
      simp [pySplitlinesAux, isLineBreak]
    | cons d rest2 =>
      have hlast : (d :: rest2).getLast? = some '\n' := by
        rwa [List.getLast?_cons_cons] at h
      rw [List.cons_append, pySplitlinesAux_cons acc c (d :: rest2 ++ b),
        pySplitlinesAux_cons acc c (d :: rest2)]
      by_cases hb : isLineBreak c
      · rw [if_pos hb, if_pos hb, ih hlast [] b, List.cons_append]
      · rw [if_neg hb, if_neg hb, ih hlast (c :: acc) b]

/-- Reading boundary-free characters only accumulates them. -/
theorem pySplitlinesAux_breakFree_append :
    ∀ (u : List Char), (∀ c ∈ u, isLineBreak c = false) → ∀ (acc v : List Char),
      pySplitlinesAux acc (u ++ v) = pySplitlinesAux (u.reverse ++ acc) v := by
  intro u
  induction u with
  | nil => intro _ acc v; simp
  | cons c rest ih =>
    intro h acc v
    have hc : isLineBreak c = false := h c (by simp)
    simp only [List.cons_append, pySplitlinesAux, hc, Bool.false_eq_true, if_false,
      List.reverse_cons, List.append_assoc, List.singleton_append]
    exact ih (fun x hx => h x (List.mem_cons_of_mem _ hx)) (c :: acc) v

/-- Splitting a boundary-free string yields the string as its only line (or
nothing at all for the empty string). -/
theorem pySplitlines_breakFree {u : List Char}
    (h : ∀ c ∈ u, isLineBreak c = false) :
    pySplitlines u = if u = [] then [] else [u] := by
  have hnr : ∀ c ∈ u, c ≠ '\r' := by
    intro c hc he
    have := h c hc
    rw [he] at this
    simp [isLineBreak] at this
  have h0 : pySplitlines u = pySplitlinesAux [] u := by
    rw [pySplitlines, normCRLF_eq_self hnr]
  rw [h0]
  have := pySplitlinesAux_breakFree_append u h [] []
  rw [List.append_nil] at this
  rw [this]
  cases u with
  | nil => simp [pySplitlinesAux]
  | cons c rest => simp [pySplitlinesAux]

/-- Joining a non-trivial line list starts with its head line and a LF. -/
theorem intercalate_nl_cons (l : List Char) (ls : List (List Char)) (h : ls ≠ []) :
    List.intercalate ['\n'] (l :: ls) = l ++ '\n' :: List.intercalate ['\n'] ls := by
  cases ls with
  | nil => exact absurd rfl h
  | cons m ms =>
    simp [List.intercalate, List.intersperse]

/-- Joining a single line is that line. -/
theorem intercalate_nl_singleton (l : List Char) :
    List.intercalate ['\n'] [l] = l := by
  simp [List.intercalate, List.intersperse]

/-- Joining the empty line list gives the empty string. -/
theorem intercalate_nl_nil : List.intercalate ['\n'] ([] : List (List Char)) = [] := by
  simp [List.intercalate]

/-- The split of a string never loses its trailing state: the accumulator
pass is non-empty as soon as something was fed to it. -/
theorem pySplitlinesAux_ne_nil :
    ∀ (t acc : List Char), t ≠ [] ∨ acc ≠ [] → pySplitlinesAux acc t ≠ [] := by
  intro t
  induction t with
  | nil =>
    intro acc h
    rcases h with h | h
    · exact absurd rfl h
    · simp [pySplitlinesAux, h]
  | cons c rest ih =>
    intro acc _
    rw [pySplitlinesAux_cons]
    by_cases hb : isLineBreak c
    · simp [hb]
    · rw [if_neg hb]
      exact ih (c :: acc) (Or.inr (by simp))

/-- Joining the lines of a LF-terminated string recovers the string without
its final LF, whatever is already in the accumulator. -/
theorem intercalate_pySplitlinesAux :
    ∀ (t : List Char), t.getLast? = some '\n' →
      (∀ c ∈ t, isLineBreak c = true → c = '\n') → ∀ (acc : List Char),
      List.intercalate ['\n'] (pySplitlinesAux acc t) = acc.reverse ++ t.dropLast := by
  intro t
  induction t with
  | nil => intro h; simp at h
  | cons c rest ih =>
    intro h hbr acc
    cases rest with
    | nil =>
      have hc : c = '\n' := by simpa using h
      subst hc
      simp [pySplitlinesAux, isLineBreak, intercalate_nl_singleton]
    | cons d rest2 =>
      have hlast : (d :: rest2).getLast? = some '\n' := by
        rwa [List.getLast?_cons_cons] at h
      have hbr2 : ∀ x ∈ d :: rest2, isLineBreak x = true → x = '\n' :=
        fun x hx => hbr x (List.mem_cons_of_mem _ hx)
      rw [pySplitlinesAux_cons]
      by_cases hb : isLineBreak c
      · have hc : c = '\n' := hbr c (by simp) hb
        subst hc
        rw [if_pos hb]
        rw [intercalate_nl_cons _ _ (pySplitlinesAux_ne_nil _ _ (Or.inl (by simp)))]
        rw [ih hlast hbr2 []]
        simp [List.dropLast]
      · rw [if_neg hb, ih hlast hbr2 (c :: acc)]
        simp [List.dropLast]

/-- Lines produced by the splitting pass contain no line-boundary
characters (given a boundary-free accumulator). -/
theorem pySplitlinesAux_breakFree :
    ∀ (t acc : List Char), (∀ c ∈ acc, isLineBreak c = false) →
      ∀ l ∈ pySplitlinesAux acc t, ∀ c ∈ l, isLineBreak c = false := by
  intro t
  induction t with
  | nil =>
    intro acc hacc l hl
    by_cases he : acc.isEmpty
    · simp [pySplitlinesAux, he] at hl
    · simp [pySplitlinesAux, he] at hl
      subst hl
      intro c hc
      exact hacc c (by simpa using hc)
  | cons d rest ih =>
    intro acc hacc l hl
    rw [pySplitlinesAux_cons] at hl
    by_cases hb : isLineBreak d
    · rw [if_pos hb] at hl
      rcases List.mem_cons.mp hl with h | h
      · subst h
        intro c hc
        exact hacc c (by simpa using hc)
      · exact ih [] (by simp) l h
    · rw [if_neg hb] at hl
      refine ih (d :: acc) ?_ l hl
      intro c hc
      rcases List.mem_cons.mp hc with h | h
      · subst h; exact eq_false_of_ne_true hb
      · exact hacc c h

/-- Characters of a LF-join are the LF separators and the lines'
characters. -/
theorem mem_intercalate_nl :
    ∀ (ls : List (List Char)) (c : Char), c ∈ List.intercalate ['\n'] ls →
      c = '\n' ∨ ∃ l ∈ ls, c ∈ l := by
  intro ls
  induction ls with
  | nil =>
    intro c hc
    rw [intercalate_nl_nil] at hc
    simp at hc
  | cons l ms ih =>
    intro c hc
    cases ms with
    | nil =>
      rw [intercalate_nl_singleton] at hc
      exact Or.inr ⟨l, by simp, hc⟩
    | cons m ms2 =>
      rw [intercalate_nl_cons _ _ (by simp)] at hc
      rcases List.mem_append.mp hc with h | h
      · exact Or.inr ⟨l, by simp, h⟩
      · rcases List.mem_cons.mp h with h | h
        · exact Or.inl h
        · rcases ih c h with h | ⟨x, hx, hcx⟩
          · exact Or.inl h
          · exact Or.inr ⟨x, List.mem_cons_of_mem _ hx, hcx⟩

/-- Splitting a boundary-free string with an empty accumulator. -/
theorem pySplitlinesAux_nil_breakFree {l : List Char}
    (h : ∀ c ∈ l, isLineBreak c = false) :
    pySplitlinesAux [] l = if l = [] then [] else [l] := by
  have h2 := pySplitlinesAux_breakFree_append l h [] []
  rw [List.append_nil, List.append_nil] at h2
  rw [h2]
  cases l with
  | nil => simp [pySplitlinesAux]
  | cons c rest => simp [pySplitlinesAux]

/-- Dropping a trailing empty line commutes with cons for non-trivial
tails. -/
theorem stripLastEmpty_cons (l : List Char) (ms : List (List Char)) (h : ms ≠ []) :
    stripLastEmpty (l :: ms) = l :: stripLastEmpty ms := by
  cases ms with
  | nil => exact absurd rfl h
  | cons m ms2 =>
    rw [stripLastEmpty, stripLastEmpty, List.getLast?_cons_cons]
    split
    · rw [List.dropLast_cons₂]
    · rfl

/-- Dropping a trailing empty line from a single line. -/
theorem stripLastEmpty_singleton (l : List Char) :
    stripLastEmpty [l] = if l = [] then [] else [l] := by
  by_cases he : l = []
  · subst he; simp [stripLastEmpty]
  · simp [stripLastEmpty, he]

/-- Splitting the LF-join of boundary-free lines recovers the lines, except
that one trailing empty line is lost (the join of `["x", ""]` is `"x\n"`,
which splits back to `["x"]`). -/
theorem pySplitlinesAux_intercalate :
    ∀ (ls : List (List Char)), ls ≠ [] →
      (∀ l ∈ ls, ∀ c ∈ l, isLineBreak c = false) →
      pySplitlinesAux [] (List.intercalate ['\n'] ls) = stripLastEmpty ls := by
  intro ls
  induction ls with
  | nil => intro h; exact absurd rfl h
  | cons l ms ih =>
    intro _ hbr
    have hlbf : ∀ c ∈ l, isLineBreak c = false := hbr l (by simp)
    cases ms with
    | nil =>
      rw [intercalate_nl_singleton, pySplitlinesAux_nil_breakFree hlbf,
        stripLastEmpty_singleton]
    | cons m ms2 =>
      rw [intercalate_nl_cons _ _ (by simp),
        pySplitlinesAux_breakFree_append l hlbf [] _, List.append_nil,
        pySplitlinesAux_cons, if_pos (by simp [isLineBreak]), List.reverse_reverse,
        ih (by simp) (fun x hx => hbr x (List.mem_cons_of_mem _ hx)),
        stripLastEmpty_cons l (m :: ms2) (by simp)]

/-- For CR-free strings the splitting pass needs no CR LF normalisation. -/
theorem pySplitlines_eq_aux {s : List Char} (h : ∀ c ∈ s, c ≠ '\r') :
    pySplitlines s = pySplitlinesAux [] s := by
  rw [pySplitlines, normCRLF_eq_self h]

/-- Splitting the LF-join of boundary-free lines, stated for
`pySplitlines`. -/
theorem pySplitlines_intercalate (ls : List (List Char)) (h : ls ≠ [])
    (hbr : ∀ l ∈ ls, ∀ c ∈ l, isLineBreak c = false) :
    pySplitlines (List.intercalate ['\n'] ls) = stripLastEmpty ls := by
  rw [pySplitlines_eq_aux, pySplitlinesAux_intercalate ls h hbr]
  intro c hc he
  rcases mem_intercalate_nl ls c hc with h2 | ⟨x, hx, hcx⟩
  · rw [he] at h2; exact absurd h2 (by decide)
  · have := hbr x hx c hcx
    rw [he] at this
    simp [isLineBreak] at this

/-- The close scan passes over lines that do not start with the ticks. -/
theorem findCloseOff_append_not (ticks : List Char) :
    ∀ (ls : List (List Char)), (∀ l ∈ ls, ticks.isPrefixOf l = false) →
      ∀ (ls2 : List (List Char)),
      findCloseOff ticks (ls ++ ls2) = ls.length + findCloseOff ticks ls2 := by
  intro ls
  induction ls with
  | nil => intro _ ls2; simp
  | cons l rest ih =>
    intro h ls2
    have hl : ticks.isPrefixOf l = false := h l (by simp)
    simp only [List.cons_append, findCloseOff, hl, Bool.false_eq_true, if_false,
      List.append_eq]
    rw [ih (fun x hx => h x (List.mem_cons_of_mem _ hx)) ls2, List.length_cons]
    omega

/-- With no closing line at all, the close scan consumes the whole suffix
(Python's inner loop runs `i` up to `len(lines)`). -/
theorem findCloseOff_all_not (ticks : List Char) (ls : List (List Char))
    (h : ∀ l ∈ ls, ticks.isPrefixOf l = false) :
    findCloseOff ticks ls = ls.length := by
  have h2 := findCloseOff_append_not ticks ls h []
  rw [List.append_nil] at h2
  simpa [findCloseOff] using h2

/-- After `parseStep`, the unread suffix is strictly shorter than before the
step (the current line is consumed, and a fence consumes its block too). -/
theorem parseStep_rest_length {tmpl : List Char} {loc : PathLocation} {ign : Bool}
    {prev : Option (List Char)} {line : List Char} {rest1 : List (List Char)}
    {acc : List TextFile} {missing : Nat} {unclosed : Bool} {st : ScanState}
    (h : parseStep tmpl loc ign prev line rest1 acc missing unclosed = some st) :
    st.rest.length ≤ rest1.length := by
  simp only [parseStep] at h
  split at h
  · split at h
    · split at h
      · exact absurd h (by simp)
      · simp only [Option.some.injEq] at h
        subst h
        simp [List.length_drop]
    · simp only [Option.some.injEq] at h
      subst h
      simp [List.length_drop]
  · simp only [Option.some.injEq] at h
    subst h
    exact le_refl _

/-- The result of the scanning loop does not depend on the fuel, as long as
the fuel covers the number of unread lines. -/
theorem parseLoop_fuel (tmpl : List Char) (loc : PathLocation) (ign : Bool) :
    ∀ (f g : Nat) (rest : List (List Char)), rest.length ≤ f → rest.length ≤ g →
      ∀ (prev : Option (List Char)) (acc : List TextFile) (m : Nat) (u : Bool),
      parseLoop tmpl loc ign f prev rest acc m u =
        parseLoop tmpl loc ign g prev rest acc m u := by
  intro f
  induction f with
  | zero =>
    intro g rest hf _ prev acc m u
    have : rest = [] := List.eq_nil_of_length_eq_zero (Nat.le_zero.mp hf)
    subst this
    cases g <;> rfl
  | succ f ihf =>
    intro g rest hf hg prev acc m u
    cases rest with
    | nil => cases g <;> rfl
    | cons line rest1 =>
      cases g with
      | zero => simp at hg
      | succ g =>
        show (match parseStep tmpl loc ign prev line rest1 acc m u with
          | none => none
          | some st => parseLoop tmpl loc ign f st.prev st.rest st.acc st.missing st.unclosed) =
          (match parseStep tmpl loc ign prev line rest1 acc m u with
          | none => none
          | some st => parseLoop tmpl loc ign g st.prev st.rest st.acc st.missing st.unclosed)
        cases hst : parseStep tmpl loc ign prev line rest1 acc m u with
        | none => rfl
        | some st =>
          have hlen := parseStep_rest_length hst
          have h1 : st.rest.length ≤ f := le_trans hlen (by simpa using hf)
          have h2 : st.rest.length ≤ g := le_trans hlen (by simpa using hg)
          simp only
          exact ihf g st.rest h1 h2 st.prev st.acc st.missing st.unclosed

/-- A scan over lines none of which opens a fence produces nothing: it
leaves the accumulated blocks, flag and count unchanged. -/
theorem parseLoop_no_fence (tmpl : List Char) (loc : PathLocation) (ign : Bool) :
    ∀ (fuel : Nat) (rest : List (List Char)), rest.length ≤ fuel →
      (∀ l ∈ rest, ("```".data).isPrefixOf l = false) →
      ∀ (prev : Option (List Char)) (acc : List TextFile) (m : Nat) (u : Bool),
      parseLoop tmpl loc ign fuel prev rest acc m u = some (acc, u, m) := by
  intro fuel
  induction fuel with
  | zero =>
    intro rest hf _ prev acc m u
    have : rest = [] := List.eq_nil_of_length_eq_zero (Nat.le_zero.mp hf)
    subst this
    rfl
  | succ fuel ih =>
    intro rest hf hnf prev acc m u
    cases rest with
    | nil => rfl
    | cons line rest1 =>
      have hline : ("```".data).isPrefixOf line = false := hnf line (by simp)
      show (match parseStep tmpl loc ign prev line rest1 acc m u with
        | none => none
        | some st => parseLoop tmpl loc ign fuel st.prev st.rest st.acc st.missing st.unclosed) =
        some (acc, u, m)
      rw [parseStep, if_neg (by simp [hline])]
      simp only
      exact ih rest1 (by simpa using hf)
        (fun l hl => hnf l (List.mem_cons_of_mem _ hl)) (some line) acc m u

/-- A match of the tick-lengthening search needs `k` backticks after a
newline, so `k` is bounded by the text length. -/
theorem hasNlWsTicks_le {text : List Char} {k : Nat}
    (h : hasNlWsTicks text k = true) : k ≤ text.length := by
  rw [hasNlWsTicks, List.any_eq_true] at h
  rcases h with ⟨s, hs, hmatch⟩
  have hsuff : s.IsSuffix text := (List.mem_tails s text).mp hs
  cases s with
  | nil => simp [nlTicksAt] at hmatch
  | cons c r =>
    simp only [nlTicksAt, Bool.and_eq_true, decide_eq_true_eq] at hmatch
    have h1 : k ≤ ((r.dropWhile pyIsSpace).takeWhile (fun c => c = '`')).length :=
      hmatch.2
    have h2 : ((r.dropWhile pyIsSpace).takeWhile (fun c => c = '`')).length ≤
        (r.dropWhile pyIsSpace).length :=
      (List.takeWhile_sublist _).length_le
    have h3 : (r.dropWhile pyIsSpace).length ≤ r.length :=
      (List.dropWhile_sublist _).length_le
    have h4 : (c :: r).length ≤ text.length := hsuff.sublist.length_le
    simp only [List.length_cons] at h4
    omega

/-- The tick-lengthening search is antitone in the required run length. -/
theorem hasNlWsTicks_anti {text : List Char} {j k : Nat} (hjk : j ≤ k)
    (h : hasNlWsTicks text k = true) : hasNlWsTicks text j = true := by
  rw [hasNlWsTicks, List.any_eq_true] at h ⊢
  rcases h with ⟨s, hs, hmatch⟩
  refine ⟨s, hs, ?_⟩
  cases s with
  | nil => simp [nlTicksAt] at hmatch
  | cons c r =>
    simp only [nlTicksAt, Bool.and_eq_true, decide_eq_true_eq] at hmatch ⊢
    exact ⟨hmatch.1, le_trans hjk hmatch.2⟩

/-- The tick-lengthening loop never shrinks its start value. -/
theorem ticksLoopAux_ge (text : List Char) :
    ∀ (fuel k : Nat), k ≤ ticksLoopAux text fuel k := by
  intro fuel
  induction fuel with
  | zero => intro k; exact le_refl _
  | succ fuel ih =>
    intro k
    rw [ticksLoopAux]
    by_cases h : hasNlWsTicks text k
    · rw [if_pos h]
      exact le_trans (Nat.le_succ k) (ih (k + 1))
    · rw [if_neg h]

/-- With sufficient fuel, the tick-lengthening loop stops at a run length
the text no longer matches. -/
theorem ticksLoopAux_not_has (text : List Char) :
    ∀ (fuel k : Nat), text.length + 1 ≤ fuel + k →
      hasNlWsTicks text (ticksLoopAux text fuel k) = false := by
  intro fuel
  induction fuel with
  | zero =>
    intro k hk
    rw [ticksLoopAux]
    by_cases h : hasNlWsTicks text k = true
    · have := hasNlWsTicks_le h
      omega
    · exact eq_false_of_ne_true h
  | succ fuel ih =>
    intro k hk
    rw [ticksLoopAux]
    by_cases h : hasNlWsTicks text k
    · rw [if_pos h]
      exact ih (k + 1) (by omega)
    · rw [if_neg h]
      exact eq_false_of_ne_true h

/-- The chosen fence length no longer matches the text. -/
theorem ticksFor_not_has (text : List Char) :
    hasNlWsTicks text (ticksFor text) = false :=
  ticksLoopAux_not_has text (text.length + 1) 3 (by omega)

/-- The serializer starts its fence at three characters. -/
theorem ticksFor_ge_three (text : List Char) : 3 ≤ ticksFor text :=
  ticksLoopAux_ge text (text.length + 1) 3

/-- A matched run length forces the loop past it. -/
theorem ticksLoopAux_gt {text : List Char} {n : Nat}
    (hn : hasNlWsTicks text n = true) :
    ∀ (fuel k : Nat), k ≤ n + 1 → n + 2 ≤ fuel + k →
      n + 1 ≤ ticksLoopAux text fuel k := by
  intro fuel
  induction fuel with
  | zero => intro k h1 h2; omega
  | succ fuel ih =>
    intro k h1 h2
    rw [ticksLoopAux]
    by_cases hk : k ≤ n
    · rw [if_pos (hasNlWsTicks_anti hk hn)]
      exact ih (k + 1) (by omega) (by omega)
    · have hk1 : k = n + 1 := by omega
      subst hk1
      by_cases h : hasNlWsTicks text (n + 1)
      · rw [if_pos h]
        exact le_trans (Nat.le_succ _) (ticksLoopAux_ge text fuel (n + 2))
      · rw [if_neg h]

/-- Claim C4 (amended): for every text containing, at a position preceded by
a newline, optional whitespace followed by a run of `n ≥ 3` or more
backticks (the source's search pattern `\n\s*` + ticks), the serializer
chooses a fence of strictly more than `n` backticks.  A backtick run on the
text's very first line is not preceded by a newline and does not lengthen
the fence (see the counterexample). -/
theorem fence_escaping_interior {text : List Char} {n : Nat} (h3 : 3 ≤ n)
    (h : hasNlWsTicks text n = true) : n < ticksFor text := by
  have hle := hasNlWsTicks_le h
  exact ticksLoopAux_gt h (text.length + 1) 3 (by omega) (by omega)

/-- Witness for the amended C4 theorem at the text `"x\n```\n"` and
`n = 3`. -/
theorem fence_escaping_interior_witness :
    (3 ≤ 3 ∧ hasNlWsTicks "x\n```\n".data 3 = true) ∧ 3 < ticksFor "x\n```\n".data :=
  ⟨⟨le_refl 3, by decide⟩, fence_escaping_interior (le_refl 3) (by decide)⟩

/-- Claim C7 (amended): the parser recognises only backtick fences — on a
document none of whose lines starts with three backticks (in particular one
whose blocks are all tilde-fenced), it returns no records, no unclosed flag
and a zero missing-path count, whatever the template, path location and
missing-path setting. -/
theorem no_backtick_fence_no_blocks (s tmpl : List Char) (loc : PathLocation)
    (ign : Bool)
    (h : ∀ l ∈ pySplitlines s, ("```".data).isPrefixOf l = false) :
    defaultParseFull s tmpl loc ign = some ([], false, 0) := by
  rw [defaultParseFull]
  exact parseLoop_no_fence tmpl loc ign _ _ (le_refl _) h none [] 0 false

/-- Witness for the amended C7 theorem on the tilde-fenced document. -/
theorem no_backtick_fence_no_blocks_witness :
    defaultParseFull "~~~python\n# out.py\nx = 1\n~~~\n".data "{}".data .below false =
      some ([], false, 0) :=
  no_backtick_fence_no_blocks _ _ _ _ (by decide)

/-- Formatting the template `"path: {}"` prepends its literal text. -/
theorem pyFormat_path_template (x : List Char) :
    pyFormat ("path: {}".data) x = "path: ".data ++ x := by
  have h : pyFormat ("path: {}".data) x =
      'p' :: 'a' :: 't' :: 'h' :: ':' :: ' ' :: (x ++ []) := rfl
  rw [h, List.append_nil]
  rfl

/-- Claim C8 (amended): the above rule applies no inversion of the path
template.  For the template `"path: {}"` (whose formatted output is never
empty), every boundary-free preceding line is accepted as the path, and the
accepted path is the entire stripped line — the template's literal text is
neither required nor removed. -/
theorem above_rule_no_inversion (ab : List Char)
    (h : ∀ c ∈ ab, isLineBreak c = false) :
    find_path_above ("path: {}".data) ab = pyStrip ab := by
  rw [find_path_above, pySplitlines_breakFree h]
  by_cases he : ab = []
  · subst he
    rfl
  · rw [if_neg he]
    simp only [List.getLast?_singleton]
    rw [pyFormat_path_template]
    rfl

/-- Witness for the amended C8 theorem on the line `"foo.py"`, which lacks
the template's literal text and is still accepted whole. -/
theorem above_rule_no_inversion_witness :
    find_path_above ("path: {}".data) ("foo.py".data) = pyStrip ("foo.py".data) :=
  above_rule_no_inversion _ (by decide)

/-- Claim C5 (amended): when the document ends while inside a fence no line
closes, the terminal block's captured text is the join of the lines from the
one after the opening fence up to but excluding the document's final line
(the capture `lines[start+1 : i-1]` with `i = len(lines)`), and the parse
ends right after it with: `last_code_block_is_unclosed` set — regardless of
its previous value — exactly when the block's path failed to resolve and
`ignore_missing_path` is true; a raised `ValueError` when the path failed
and `ignore_missing_path` is false; and the flag left at its previous value
when the path resolved. -/
theorem unclosed_terminal (tmpl : List Char) (loc : PathLocation) (ign : Bool)
    (fuel : Nat) (prev : Option (List Char)) (line : List Char)
    (rest1 : List (List Char)) (acc : List TextFile) (m : Nat) (u : Bool)
    (pc : List Char × List Char)
    (hpc : pc = resolveBlockPath tmpl loc prev
      ((pyStrip (line.drop (line.takeWhile (fun c => c = '`')).length)).takeWhile
        (fun c => c ≠ ' '))
      (List.intercalate ['\n'] rest1.dropLast))
    (hfence : ("```".data).isPrefixOf line = true)
    (hnoclose : ∀ l ∈ rest1, (line.takeWhile (fun c => c = '`')).isPrefixOf l = false)
    (hne : rest1 ≠ []) :
    parseLoop tmpl loc ign (fuel + 1) prev (line :: rest1) acc m u =
      if pc.1 = [] then
        if ign = false then none else some (acc ++ [⟨pc.2, pc.1⟩], true, m + 1)
      else some (acc ++ [⟨pc.2, pc.1⟩], u, m) := by
  have hoff := findCloseOff_all_not (line.takeWhile (fun c => c = '`')) rest1 hnoclose
  have hlastmem : rest1.getLastD line ∈ rest1 := by
    cases rest1 with
    | nil => exact absurd rfl hne
    | cons a as =>
      rw [List.getLastD_eq_getLast?, List.getLast?_eq_getLast _ (by simp),
        Option.getD_some]
      exact List.getLast_mem _
  have hlast : (line.takeWhile (fun c => c = '`')).isPrefixOf (rest1.getLastD line) =
      false := hnoclose _ hlastmem
  have hstep : parseStep tmpl loc ign prev line rest1 acc m u =
      if pc.1 = [] then
        if ign = false then none
        else some ⟨some (rest1.getLastD line), [], acc ++ [⟨pc.2, pc.1⟩], m + 1, true⟩
      else some ⟨some (rest1.getLastD line), [], acc ++ [⟨pc.2, pc.1⟩], m, u⟩ := by
    rw [hpc, parseStep, if_pos hfence]
    simp only [hoff, List.take_length, List.drop_length, ← List.dropLast_eq_take,
      hlast, eq_self_iff_true, and_self, if_true]
  show (match parseStep tmpl loc ign prev line rest1 acc m u with
    | none => none
    | some st =>
        parseLoop tmpl loc ign fuel st.prev st.rest st.acc st.missing st.unclosed) = _
  rw [hstep]
  by_cases hp : pc.1 = []
  · rw [if_pos hp, if_pos hp]
    by_cases hi : ign = false
    · rw [if_pos hi, if_pos hi]
    · rw [if_neg hi, if_neg hi]
      cases fuel <;> rfl
  · rw [if_neg hp, if_neg hp]
    cases fuel <;> rfl

/-- Witness for the amended C5 theorem: the single unclosed block of the
line list of `"```python\nx = 1\ny"` has no path; with
`ignore_missing_path` true its record carries the captured text `"x = 1"` —
the final line `"y"` is dropped — and the flag is set. -/
theorem unclosed_terminal_witness :
    parseLoop "{}".data .below true 3 none
      ["```python".data, "x = 1".data, "y".data] [] 0 false =
      some ([⟨"x = 1".data, []⟩], true, 1) := by
  rw [unclosed_terminal "{}".data .below true 2 none "```python".data
    ["x = 1".data, "y".data] [] 0 false ([], "x = 1".data) (by decide) (by decide)
    (by decide) (by decide)]
  decide

/-- Claim C9: truncation follows 0-indexed, end-exclusive Python slice
semantics with negative from-end indices.  On a ten-line file, the spec
`"[2:5]"` parses to the slice `2:5` and selects exactly the lines at
0-based indices 2, 3 and 4 (lines 3 through 5), and `"[-1]"` parses to the
bare index `-1` and selects exactly the last line. -/
theorem truncation_slice_semantics (lines : List (List Char))
    (h : lines.length = 10) :
    parseLineSpec "[2:5]".data = some [LineIndex.slice (some 2) (some 5)] ∧
    applyLineSpec lines [LineIndex.slice (some 2) (some 5)] = (lines.drop 2).take 3 ∧
    parseLineSpec "[-1]".data = some [LineIndex.single (-1)] ∧
    applyLineSpec lines [LineIndex.single (-1)] = lines.drop 9 := by
  refine ⟨by decide, ?_, by decide, ?_⟩
  · show [] ++ pySliceList lines (some 2) (some 5) = (lines.drop 2).take 3
    rw [List.nil_append, pySliceList]
    simp only [h]
    norm_num
    rw [List.take_drop 2 3 lines]
    norm_num
    rfl
  · have h9 : 9 < lines.length := by omega
    have hidx : pyIndexGet lines (-1) = some (lines.get ⟨9, h9⟩) := by
      rw [pyIndexGet]
      simp only [h]
      norm_num
      rfl
    simp only [applyLineSpec, List.foldl_cons, List.foldl_nil, hidx, List.nil_append]
    rw [List.drop_eq_getElem_cons h9, List.drop_of_length_le (by omega)]
    simp only [List.get_eq_getElem]

/-- Witness for the truncation theorem on a concrete ten-line file. -/
theorem truncation_slice_semantics_witness :
    parseLineSpec "[2:5]".data = some [LineIndex.slice (some 2) (some 5)] ∧
    applyLineSpec tenLines [LineIndex.slice (some 2) (some 5)] = (tenLines.drop 2).take 3 ∧
    parseLineSpec "[-1]".data = some [LineIndex.single (-1)] ∧
    applyLineSpec tenLines [LineIndex.single (-1)] = tenLines.drop 9 :=
  truncation_slice_semantics tenLines (by decide)

/-- Taking past an appended prefix keeps the prefix and takes the rest. -/
theorem take_append_plus {α : Type} (l1 l2 : List α) (i : Nat) :
    (l1 ++ l2).take (l1.length + i) = l1 ++ l2.take i := by
  induction l1 with
  | nil => simp
  | cons a l1 ih => simp [Nat.succ_add, ih]

/-- Dropping past an appended prefix drops within the rest. -/
theorem drop_append_plus {α : Type} (l1 l2 : List α) (i : Nat) :
    (l1 ++ l2).drop (l1.length + i) = l2.drop i := by
  induction l1 with
  | nil => simp
  | cons a l1 ih => simp [Nat.succ_add, ih]

/-- The inferred language is one of the two known tags or empty. -/
theorem infer_language_cases (p : List Char) :
    infer_language p = "python".data ∨ infer_language p = "rust".data ∨
      infer_language p = [] := by
  rw [infer_language]
  split
  · exact Or.inl rfl
  · split
    · exact Or.inr (Or.inl rfl)
    · exact Or.inr (Or.inr rfl)

/-- The language tag is unchanged by stripping. -/
theorem lang_pyStrip (p : List Char) :
    pyStrip (infer_language p) = infer_language p := by
  rcases infer_language_cases p with h | h | h <;> rw [h] <;> decide

/-- The language tag is its own first info-string token. -/
theorem lang_token (p : List Char) :
    (infer_language p).takeWhile (fun c => c ≠ ' ') = infer_language p := by
  rcases infer_language_cases p with h | h | h <;> rw [h] <;> decide

/-- The language tag starts with no backtick. -/
theorem lang_no_tick (p : List Char) :
    (infer_language p).takeWhile (fun c => c = '`') = [] := by
  rcases infer_language_cases p with h | h | h <;> rw [h] <;> decide

/-- The language tag holds no line-boundary character. -/
theorem lang_breakFree (p : List Char) :
    ∀ c ∈ infer_language p, isLineBreak c = false := by
  rcases infer_language_cases p with h | h | h <;> rw [h] <;> decide

/-- The comment marker of an inferred language holds no line-boundary
character. -/
theorem cp_breakFree (p : List Char) :
    ∀ c ∈ comment_prefix_for_language (infer_language p), isLineBreak c = false := by
  rcases infer_language_cases p with h | h | h <;> rw [h] <;> decide

/-- A backtick run is never a prefix of a line starting with another
character. -/
theorem replicate_tick_not_pfx_cons {t : Nat} (ht : 1 ≤ t) {c : Char}
    (hc : c ≠ '`') (l : List Char) :
    (List.replicate t '`').isPrefixOf (c :: l) = false := by
  obtain ⟨t2, rfl⟩ : ∃ t2, t = t2 + 1 := ⟨t - 1, by omega⟩
  rw [List.replicate_succ, List.isPrefixOf_cons₂]
  have : ('`' == c) = false := by
    rw [beq_eq_false_iff_ne]
    exact fun he => hc he.symm
  rw [this, Bool.false_and]

/-- A backtick run of length at least three is never a prefix of a line not
starting with three backticks. -/
theorem replicate_tick_not_pfx_of_not_three {t : Nat} (ht : 3 ≤ t) {l : List Char}
    (h : ("```".data).isPrefixOf l = false) :
    (List.replicate t '`').isPrefixOf l = false := by
  by_contra hcon
  rw [Bool.not_eq_false, List.isPrefixOf_iff_prefix] at hcon
  have h3 : ("```".data) <+: List.replicate t '`' := by
    have he : "```".data = List.replicate 3 '`' := rfl
    rw [he]
    obtain ⟨t2, rfl⟩ : ∃ t2, t = 3 + t2 := ⟨t - 3, by omega⟩
    rw [List.replicate_add]
    exact List.prefix_append _ _
  rw [← Bool.not_eq_true, List.isPrefixOf_iff_prefix] at h
  exact h (h3.trans hcon)

/-- A line starting with a backtick run of length at least three is
recognised as an opening fence. -/
theorem fence_pfx_replicate {t : Nat} (ht : 3 ≤ t) (rest : List Char) :
    ("```".data).isPrefixOf (List.replicate t '`' ++ rest) = true := by
  rw [List.isPrefixOf_iff_prefix]
  have he : "```".data = List.replicate 3 '`' := rfl
  rw [he]
  obtain ⟨t2, rfl⟩ : ∃ t2, t = 3 + t2 := ⟨t - 3, by omega⟩
  rw [List.replicate_add, List.append_assoc]
  exact List.prefix_append _ _

/-- Taking while a predicate holds skips over a block where it always
holds. -/
theorem takeWhile_append_all {α : Type} {p : α → Bool} :
    ∀ (xs : List α), (∀ x ∈ xs, p x = true) → ∀ (ys : List α),
      (xs ++ ys).takeWhile p = xs ++ ys.takeWhile p := by
  intro xs
  induction xs with
  | nil => intro _ ys; simp
  | cons a xs ih =>
    intro h ys
    have ha : p a = true := h a (by simp)
    simp only [List.cons_append, List.takeWhile_cons, ha, if_true]
    rw [ih (fun x hx => h x (List.mem_cons_of_mem _ hx)) ys]

/-- Splitting a line followed by a LF and more text emits the line. -/
theorem pySplitlinesAux_line_cons (l : List Char)
    (hl : ∀ c ∈ l, isLineBreak c = false) (rest : List Char) :
    pySplitlinesAux [] (l ++ '\n' :: rest) = l :: pySplitlinesAux [] rest := by
  rw [pySplitlinesAux_breakFree_append l hl [] _, List.append_nil, pySplitlinesAux_cons,
    if_pos (by decide), List.reverse_reverse]

/-- Lines of a split document are boundary-free. -/
theorem pySplitlines_lines_breakFree (s : List Char) :
    ∀ l ∈ pySplitlines s, ∀ c ∈ l, isLineBreak c = false :=
  pySplitlinesAux_breakFree (normCRLF s) [] (by simp)

/-- CR LF normalisation keeps a string non-empty. -/
theorem normCRLF_ne_nil {s : List Char} (h : s ≠ []) : normCRLF s ≠ [] := by
  cases s with
  | nil => exact absurd rfl h
  | cons c rest =>
    cases rest with
    | nil => simp [normCRLF]
    | cons d rest2 =>
      rw [normCRLF]
      split <;> simp

/-- A non-empty string splits into at least one line. -/
theorem pySplitlines_ne_nil {s : List Char} (h : s ≠ []) : pySplitlines s ≠ [] :=
  pySplitlinesAux_ne_nil _ _ (Or.inl (normCRLF_ne_nil h))

/-- Unfolding equation of `nlTicksAt` at a cons cell. -/
theorem nlTicksAt_cons (k : Nat) (c : Char) (r : List Char) :
    nlTicksAt k (c :: r) =
      (c = '\n' && k ≤ ((r.dropWhile pyIsSpace).takeWhile (fun c => c = '`')).length) :=
  rfl

/-- Every member line of a joined list sits right after some LF of the join
of any non-trivial extension. -/
theorem intercalate_mem_decomp :
    ∀ (ls : List (List Char)) (tl : List Char), tl ∈ ls → ∀ (l : List Char),
      ∃ u v, List.intercalate ['\n'] (l :: ls) = u ++ '\n' :: (tl ++ v) := by
  intro ls
  induction ls with
  | nil => intro tl h; simp at h
  | cons m ms ih =>
    intro tl h l
    rcases List.mem_cons.mp h with rfl | h
    · cases ms with
      | nil =>
        exact ⟨l, [], by
          rw [intercalate_nl_cons _ _ (by simp), intercalate_nl_singleton,
            List.append_nil]⟩
      | cons m2 ms2 =>
        refine ⟨l, '\n' :: List.intercalate ['\n'] (m2 :: ms2), ?_⟩
        rw [intercalate_nl_cons _ _ (by simp), intercalate_nl_cons _ _ (by simp)]
    · rcases ih tl h m with ⟨u, v, huv⟩
      refine ⟨l ++ '\n' :: u, v, ?_⟩
      rw [intercalate_nl_cons _ _ (by simp), huv]
      simp

/-- A text whose breaks are all LF and which ends in LF is the LF-join of
its lines followed by a final LF. -/
theorem goodText_eq_join {t : List Char} (hlast : t.getLast? = some '\n')
    (hbr : ∀ c ∈ t, isLineBreak c = true → c = '\n') :
    t = List.intercalate ['\n'] (pySplitlines t) ++ ['\n'] := by
  have hcr : ∀ c ∈ t, c ≠ '\r' := by
    intro c hc he
    have h2 := hbr c hc (by rw [he]; decide)
    rw [he] at h2
    exact absurd h2 (by decide)
  have h1 : List.intercalate ['\n'] (pySplitlinesAux [] t) = t.dropLast := by
    have h2 := intercalate_pySplitlinesAux t hlast hbr []
    simpa using h2
  rw [pySplitlines_eq_aux hcr, h1]
  exact (List.dropLast_append_getLast? '\n' (Option.mem_def.mpr hlast)).symm

/-- An interior line of a good text (any line after the first) is preceded
in the text by a LF. -/
theorem goodText_interior_decomp {t : List Char} (hgt : goodText t)
    {tl : List Char} (h : tl ∈ (pySplitlines t).tail) :
    ∃ u v, t = u ++ '\n' :: (tl ++ v) := by
  obtain ⟨hlast, hbr, _⟩ := hgt
  have hjoin := goodText_eq_join hlast hbr
  cases hsplit : pySplitlines t with
  | nil => rw [hsplit] at h; simp at h
  | cons l0 ls =>
    rw [hsplit] at h hjoin
    simp only [List.tail_cons] at h
    rcases intercalate_mem_decomp ls tl h l0 with ⟨u, v, huv⟩
    refine ⟨u, v ++ ['\n'], ?_⟩
    rw [hjoin, huv]
    simp

/-- A line opened by a backtick run of positive length and preceded by a LF
makes the text match the tick-lengthening search for that run length. -/
theorem hasNlWsTicks_of_decomp {t u tl v : List Char} {k : Nat} (hk : 1 ≤ k)
    (ht : t = u ++ '\n' :: (tl ++ v))
    (hpfx : (List.replicate k '`').isPrefixOf tl = true) :
    hasNlWsTicks t k = true := by
  rw [hasNlWsTicks, List.any_eq_true]
  refine ⟨'\n' :: (tl ++ v), ?_, ?_⟩
  · rw [List.mem_tails, ht]
    exact ⟨u, rfl⟩
  · rw [nlTicksAt_cons]
    rw [List.isPrefixOf_iff_prefix] at hpfx
    rcases hpfx with ⟨w, hw⟩
    have h1 : tl ++ v = List.replicate k '`' ++ (w ++ v) := by
      rw [← hw, List.append_assoc]
    rw [h1]
    have hd : (List.replicate k '`' ++ (w ++ v)).dropWhile pyIsSpace =
        List.replicate k '`' ++ (w ++ v) := by
      obtain ⟨k2, rfl⟩ : ∃ k2, k = k2 + 1 := ⟨k - 1, by omega⟩
      rw [List.replicate_succ, List.cons_append,
        List.dropWhile_cons_of_neg (by decide)]
    rw [hd, takeWhile_append_all _ (fun x hx => by
      rcases List.mem_replicate.mp hx with ⟨_, rfl⟩
      decide) _]
    simp

/-- Joining lines with a trailing empty line appends a final LF. -/
theorem intercalate_append_nil_line :
    ∀ (ys : List (List Char)), ys ≠ [] →
      List.intercalate ['\n'] (ys ++ [([] : List Char)]) =
        List.intercalate ['\n'] ys ++ ['\n'] := by
  intro ys
  induction ys with
  | nil => intro h; exact absurd rfl h
  | cons y ys ih =>
    intro _
    cases ys with
    | nil =>
      rw [List.cons_append, List.nil_append, intercalate_nl_cons _ _ (by simp),
        intercalate_nl_singleton, intercalate_nl_singleton]
    | cons y2 ys2 =>
      rw [List.cons_append, intercalate_nl_cons _ _ (by simp),
        intercalate_nl_cons _ _ (by simp), ih (by simp)]
      simp

/-- Trailing-newline normalization absorbs a final LF. -/
theorem normNl_append_nl (x : List Char) : normNl (x ++ ['\n']) = normNl x := by
  rw [normNl, normNl, List.reverse_append]
  simp only [List.reverse_cons, List.reverse_nil, List.nil_append, List.singleton_append]
  rw [List.dropWhile_cons_of_pos (by decide)]

/-- The text the parser recovers for a record equals the record's own text
after trailing-newline normalization. -/
theorem normNl_parsedTextOf {r : TextFile} (hgt : goodText r.text) :
    normNl (parsedTextOf r) = normNl r.text := by
  obtain ⟨hlast, hbr, _⟩ := hgt
  have hjoin := goodText_eq_join hlast hbr
  have hrhs : normNl r.text = normNl (List.intercalate ['\n'] (pySplitlines r.text)) := by
    conv_lhs => rw [hjoin]
    rw [normNl_append_nl]
  rw [parsedTextOf, stripLastEmpty]
  split
  · rename_i hlt
    have hdecomp : pySplitlines r.text =
        (pySplitlines r.text).dropLast ++ [([] : List Char)] :=
      (List.dropLast_append_getLast? _ (Option.mem_def.mpr hlt)).symm
    rw [hrhs]
    cases hdl : (pySplitlines r.text).dropLast with
    | nil =>
      rw [intercalate_nl_nil]
      conv_rhs => rw [hdecomp, hdl]
      rw [List.nil_append, intercalate_nl_singleton]
    | cons d ds =>
      rw [← hdl]
      conv_rhs => rw [hdecomp]
      rw [intercalate_append_nil_line _ (by rw [hdl]; simp), normNl_append_nl]
  · rw [hrhs]

/-- The fence characters hold no line boundary. -/
theorem ticksOf_breakFree (r : TextFile) :
    ∀ c ∈ ticksOf r, isLineBreak c = false := by
  intro c hc
  rcases List.mem_replicate.mp hc with ⟨_, rfl⟩
  decide

/-- The opening fence line holds no line boundary. -/
theorem openLineOf_breakFree (r : TextFile) :
    ∀ c ∈ openLineOf r, isLineBreak c = false := by
  intro c hc
  rcases List.mem_append.mp hc with h | h
  · exact ticksOf_breakFree r c h
  · exact lang_breakFree r.path c h

/-- The commented path line of a good record holds no line boundary. -/
theorem commentLineOf_breakFree {r : TextFile} (hgp : goodPath r.path) :
    ∀ c ∈ commentLineOf r, isLineBreak c = false := by
  intro c hc
  rcases List.mem_append.mp hc with h | h
  · exact cp_breakFree r.path c h
  · rcases List.mem_cons.mp h with rfl | h
    · decide
    · exact hgp.2.2 c h

/-- Structure of the below-mode serialization of one record. -/
theorem default_formatter_below_eq (r : TextFile) :
    default_formatter r .below =
      openLineOf r ++ '\n' ::
        (commentLineOf r ++ '\n' :: (r.text ++ (ticksOf r ++ '\n' :: ['\n']))) := by
  simp [default_formatter, openLineOf, commentLineOf, ticksOf, List.append_assoc]

/-- The serialization of a good record contains no CR. -/
theorem default_formatter_below_crFree {r : TextFile} (hgp : goodPath r.path)
    (hgt : goodText r.text) :
    ∀ c ∈ default_formatter r .below, c ≠ '\r' := by
  intro c hc he
  have hbreak : isLineBreak c = true := by rw [he]; decide
  have hnn : c ≠ '\n' := by rw [he]; decide
  rw [default_formatter_below_eq] at hc
  rcases List.mem_append.mp hc with h | h
  · rw [openLineOf_breakFree r c h] at hbreak
    exact absurd hbreak (by decide)
  · rcases List.mem_cons.mp h with rfl | h
    · exact hnn rfl
    · rcases List.mem_append.mp h with h | h
      · rw [commentLineOf_breakFree hgp c h] at hbreak
        exact absurd hbreak (by decide)
      · rcases List.mem_cons.mp h with rfl | h
        · exact hnn rfl
        · rcases List.mem_append.mp h with h | h
          · exact hnn (hgt.2.1 c h hbreak)
          · rcases List.mem_append.mp h with h | h
            · rw [ticksOf_breakFree r c h] at hbreak
              exact absurd hbreak (by decide)
            · rcases List.mem_cons.mp h with rfl | h
              · exact hnn rfl
              · rcases List.mem_cons.mp h with rfl | h
                · exact hnn rfl
                · simp at h

/-- The serialization of one record splits into its block lines. -/
theorem pySplitlines_formatter {r : TextFile} (hgp : goodPath r.path)
    (hgt : goodText r.text) :
    pySplitlines (default_formatter r .below) = blockLinesOf r := by
  have hcrt : ∀ c ∈ r.text, c ≠ '\r' := by
    intro c hc he
    have h2 := hgt.2.1 c hc (by rw [he]; decide)
    rw [he] at h2
    exact absurd h2 (by decide)
  rw [pySplitlines_eq_aux (default_formatter_below_crFree hgp hgt),
    default_formatter_below_eq,
    pySplitlinesAux_line_cons _ (openLineOf_breakFree r) _,
    pySplitlinesAux_line_cons _ (commentLineOf_breakFree hgp) _,
    pySplitlinesAux_append_nl r.text hgt.1 [] _,
    pySplitlinesAux_line_cons _ (ticksOf_breakFree r) _]
  have h1 : pySplitlinesAux [] ['\n'] = [([] : List Char)] := by decide
  rw [h1, ← pySplitlines_eq_aux hcrt, blockLinesOf]

/-- The serialization of a record sequence is the concatenation of the
records' serializations. -/
theorem serializeBelow_cons (r : TextFile) (rs : List TextFile) :
    serializeBelow (r :: rs) = default_formatter r .below ++ serializeBelow rs := by
  simp [serializeBelow]

/-- The serialization of a good record sequence contains no CR. -/
theorem serializeBelow_crFree :
    ∀ (rs : List TextFile), (∀ r ∈ rs, goodPath r.path ∧ goodText r.text) →
      ∀ c ∈ serializeBelow rs, c ≠ '\r' := by
  intro rs
  induction rs with
  | nil => intro _ c hc; simp [serializeBelow] at hc
  | cons r rs ih =>
    intro h c hc
    rw [serializeBelow_cons] at hc
    rcases List.mem_append.mp hc with h2 | h2
    · exact default_formatter_below_crFree (h r (by simp)).1 (h r (by simp)).2 c h2
    · exact ih (fun x hx => h x (List.mem_cons_of_mem _ hx)) c h2

/-- The serialization of one record ends with a LF. -/
theorem default_formatter_below_getLast (r : TextFile) :
    (default_formatter r .below).getLast? = some '\n' := by
  have h1 : default_formatter r .below =
      (openLineOf r ++ '\n' ::
        (commentLineOf r ++ '\n' :: (r.text ++ (ticksOf r ++ ['\n'])))) ++ ['\n'] := by
    rw [default_formatter_below_eq]
    simp
  rw [h1, List.getLast?_concat]

/-- The document of a serialized good sequence splits into the blocks'
lines. -/
theorem pySplitlines_serializeBelow :
    ∀ (rs : List TextFile), (∀ r ∈ rs, goodPath r.path ∧ goodText r.text) →
      pySplitlines (serializeBelow rs) =
        (rs.map blockLinesOf).foldr (fun a b => a ++ b) [] := by
  intro rs
  induction rs with
  | nil => intro _; rfl
  | cons r rs ih =>
    intro h
    have hr := h r (by simp)
    have hrs := fun x hx => h x (List.mem_cons_of_mem _ hx)
    rw [serializeBelow_cons,
      pySplitlines_eq_aux (by
        intro c hc
        rcases List.mem_append.mp hc with h2 | h2
        · exact default_formatter_below_crFree hr.1 hr.2 c h2
        · exact serializeBelow_crFree rs hrs c h2),
      pySplitlinesAux_append_nl _ (default_formatter_below_getLast r) [] _,
      ← pySplitlines_eq_aux (default_formatter_below_crFree hr.1 hr.2),
      ← pySplitlines_eq_aux (serializeBelow_crFree rs hrs),
      pySplitlines_formatter hr.1 hr.2, ih hrs]
    simp

/-- The first line the splitting pass emits is what was accumulated plus the
characters up to the first boundary. -/
theorem pySplitlinesAux_head :
    ∀ (t acc : List Char), t ≠ [] ∨ acc ≠ [] →
      (pySplitlinesAux acc t).head? =
        some (acc.reverse ++ t.takeWhile (fun c => !isLineBreak c)) := by
  intro t
  induction t with
  | nil =>
    intro acc h
    rcases h with h | h
    · exact absurd rfl h
    · simp [pySplitlinesAux, h]
  | cons c rest ih =>
    intro acc _
    rw [pySplitlinesAux_cons]
    by_cases hb : isLineBreak c
    · rw [if_pos hb]
      simp [List.takeWhile_cons, hb]
    · rw [if_neg hb]
      rw [ih (c :: acc) (Or.inr (by simp))]
      simp [List.takeWhile_cons, hb]

/-- The first line of a split CR-free string is a prefix of the string. -/
theorem pySplitlines_head_prefix {s l0 : List Char} {ls : List (List Char)}
    (hcr : ∀ c ∈ s, c ≠ '\r') (h : pySplitlines s = l0 :: ls) : l0 <+: s := by
  have h1 : (pySplitlines s).head? = some l0 := by rw [h]; rfl
  rw [pySplitlines_eq_aux hcr] at h1
  cases s with
  | nil => simp [pySplitlinesAux] at h1
  | cons a s2 =>
    rw [pySplitlinesAux_head (a :: s2) [] (Or.inl (by simp))] at h1
    simp only [List.reverse_nil, List.nil_append, Option.some.injEq] at h1
    rw [← h1]
    exact List.takeWhile_prefix _

/-- No line of a good record's block between the opening and closing fences
starts with the chosen fence: not the commented path line, not the text's
first line (the text does not open with three backticks), and not an
interior line of the text (such a line would have lengthened the fence). -/
theorem blockLinesOf_noclose {r : TextFile} (_hgp : goodPath r.path)
    (hgt : goodText r.text) :
    ∀ tl ∈ commentLineOf r :: pySplitlines r.text,
      (ticksOf r).isPrefixOf tl = false := by
  intro tl htl
  have ht3 : 3 ≤ ticksFor r.text := ticksFor_ge_three r.text
  have hcrt : ∀ c ∈ r.text, c ≠ '\r' := by
    intro c hc he
    have h2 := hgt.2.1 c hc (by rw [he]; decide)
    rw [he] at h2
    exact absurd h2 (by decide)
  rcases List.mem_cons.mp htl with rfl | htl
  · rw [ticksOf, commentLineOf]
    rcases infer_language_cases r.path with h | h | h <;> rw [h]
    · rw [show comment_prefix_for_language ("python".data) = "#".data from by decide]
      exact replicate_tick_not_pfx_cons (by omega) (by decide) _
    · rw [show comment_prefix_for_language ("rust".data) = "//".data from by decide]
      exact replicate_tick_not_pfx_cons (by omega) (by decide) _
    · rw [show comment_prefix_for_language ([] : List Char) = [] from by decide]
      rw [List.nil_append]
      exact replicate_tick_not_pfx_cons (by omega) (by decide) _
  · cases hsplit : pySplitlines r.text with
    | nil => rw [hsplit] at htl; simp at htl
    | cons l0 ls =>
      rw [hsplit] at htl
      rcases List.mem_cons.mp htl with rfl | htl2
      · have hpfx : tl <+: r.text := pySplitlines_head_prefix hcrt hsplit
        have h3 : ("```".data).isPrefixOf tl = false := by
          by_contra hcon
          rw [Bool.not_eq_false, List.isPrefixOf_iff_prefix] at hcon
          have h4 := hcon.trans hpfx
          rw [← List.isPrefixOf_iff_prefix] at h4
          rw [hgt.2.2] at h4
          exact absurd h4 (by decide)
        rw [ticksOf]
        exact replicate_tick_not_pfx_of_not_three ht3 h3
      · rw [ticksOf]
        by_contra hcon
        rw [Bool.not_eq_false] at hcon
        rcases goodText_interior_decomp hgt
            (by rw [hsplit]; simpa using htl2) with ⟨u, v, huv⟩
        have h5 := hasNlWsTicks_of_decomp (k := ticksFor r.text) (by omega) huv hcon
        rw [ticksFor_not_has r.text] at h5
        exact absurd h5 (by decide)

/-- A line that opens no fence only advances the scan. -/
theorem parseStep_nonfence {tmpl : List Char} {loc : PathLocation} {ign : Bool}
    {prev : Option (List Char)} {line : List Char} {rest1 : List (List Char)}
    {acc : List TextFile} {m : Nat} {u : Bool}
    (h : ("```".data).isPrefixOf line = false) :
    parseStep tmpl loc ign prev line rest1 acc m u =
      some ⟨some line, rest1, acc, m, u⟩ := by
  rw [parseStep, if_neg (by simp [h])]

/-- The close scan stops immediately on the closing fence line. -/
theorem findCloseOff_self_head (ticks : List Char) (ls : List (List Char)) :
    findCloseOff ticks (ticks :: ls) = 1 := by
  rw [findCloseOff, if_pos (List.isPrefixOf_iff_prefix.mpr (List.prefix_refl _))]

/-- In below mode, a block whose below search finds a path resolves to that
search's result, whatever precedes the fence. -/
theorem resolveBlockPath_below_found {tmpl : List Char} {prev : Option (List Char)}
    {language code : List Char}
    (h : (find_path_below tmpl language code).1 ≠ []) :
    resolveBlockPath tmpl .below prev language code =
      find_path_below tmpl language code := by
  cases prev with
  | none => exact ite_self _
  | some ab => exact if_neg h

/-- The below search on the captured block of a serialized good record finds
the record's path and strips the comment line, leaving the recovered
text. -/
theorem find_path_below_comment {r : TextFile} (hgp : goodPath r.path)
    (hgt : goodText r.text) :
    find_path_below ("{}".data) (infer_language r.path)
      (List.intercalate ['\n'] (commentLineOf r :: pySplitlines r.text)) =
      (r.path, parsedTextOf r) := by
  have htext_ne : r.text ≠ [] := by
    intro he
    have h2 := hgt.1
    rw [he] at h2
    exact absurd h2 (by decide)
  have hsplit : pySplitlines
      (List.intercalate ['\n'] (commentLineOf r :: pySplitlines r.text)) =
      stripLastEmpty (commentLineOf r :: pySplitlines r.text) := by
    refine pySplitlines_intercalate _ (by simp) ?_
    intro l hl
    rcases List.mem_cons.mp hl with rfl | hl
    · exact commentLineOf_breakFree hgp
    · exact pySplitlines_lines_breakFree r.text l hl
  have hstrip : stripLastEmpty (commentLineOf r :: pySplitlines r.text) =
      commentLineOf r :: stripLastEmpty (pySplitlines r.text) :=
    stripLastEmpty_cons _ _ (pySplitlines_ne_nil htext_ne)
  have htb : templateBefore ("{}".data) = [] := rfl
  have hpfx : ((comment_prefix_for_language (infer_language r.path)) ++
      ' ' :: templateBefore ("{}".data)).isPrefixOf (commentLineOf r) = true := by
    rw [htb, List.isPrefixOf_iff_prefix, commentLineOf]
    exact ⟨r.path, by simp⟩
  have hdrop : (commentLineOf r).drop
      ((comment_prefix_for_language (infer_language r.path)).length + 1) = r.path := by
    rw [commentLineOf]
    have h2 : comment_prefix_for_language (infer_language r.path) ++ ' ' :: r.path =
        (comment_prefix_for_language (infer_language r.path) ++ [' ']) ++ r.path := by
      simp
    rw [h2, List.drop_left' (by simp)]
  simp only [find_path_below, hsplit, hstrip]
  rw [if_pos hpfx, hdrop, hgp.2.1]
  rfl

/-- One full iteration of the scanning loop over a serialized good record:
the block's record (recovered text and path) is appended and the scan
resumes after the blank separator line. -/
theorem parse_block_step {r : TextFile} (hgp : goodPath r.path) (hgt : goodText r.text)
    (docRest : List (List Char)) (fuel : Nat) (prev : Option (List Char))
    (acc : List TextFile) (m : Nat) :
    parseLoop ("{}".data) .below false (fuel + 2) prev (blockLinesOf r ++ docRest)
      acc m false =
      parseLoop ("{}".data) .below false fuel (some []) docRest
        (acc ++ [⟨parsedTextOf r, r.path⟩]) m false := by
  have ht3 : 3 ≤ ticksFor r.text := ticksFor_ge_three r.text
  have hticks : (openLineOf r).takeWhile (fun c => c = '`') = ticksOf r := by
    rw [openLineOf, ticksOf, takeWhile_append_all _ (fun x hx => by
      rcases List.mem_replicate.mp hx with ⟨_, rfl⟩
      decide) _, lang_no_tick, List.append_nil]
  have hlang : (openLineOf r).drop (ticksOf r).length = infer_language r.path := by
    rw [openLineOf, List.drop_left]
  have hfence : ("```".data).isPrefixOf (openLineOf r) = true := by
    rw [openLineOf, ticksOf]
    exact fence_pfx_replicate ht3 _
  have hoff : findCloseOff (ticksOf r)
      ((commentLineOf r :: pySplitlines r.text) ++ (ticksOf r :: [] :: docRest)) =
      (commentLineOf r :: pySplitlines r.text).length + 1 := by
    rw [findCloseOff_append_not _ _ (blockLinesOf_noclose hgp hgt) _,
      findCloseOff_self_head]
  have hresolve : resolveBlockPath ("{}".data) .below prev (infer_language r.path)
      (List.intercalate ['\n'] (commentLineOf r :: pySplitlines r.text)) =
      (r.path, parsedTextOf r) := by
    rw [resolveBlockPath_below_found (by rw [find_path_below_comment hgp hgt]; exact hgp.1),
      find_path_below_comment hgp hgt]
  have hassoc : blockLinesOf r ++ docRest =
      openLineOf r ::
        ((commentLineOf r :: pySplitlines r.text) ++ (ticksOf r :: [] :: docRest)) := by
    simp [blockLinesOf]
  have hstep1 : parseStep ("{}".data) .below false prev (openLineOf r)
      ((commentLineOf r :: pySplitlines r.text) ++ (ticksOf r :: [] :: docRest))
      acc m false =
      some ⟨some (ticksOf r), [] :: docRest, acc ++ [⟨parsedTextOf r, r.path⟩], m,
        false⟩ := by
    rw [parseStep, if_pos hfence]
    simp only [hticks, hlang, lang_pyStrip, lang_token, hoff, Nat.add_sub_cancel,
      List.take_left, hresolve, take_append_plus, drop_append_plus]
    rw [if_neg (by simpa using hgp.1)]
    simp [List.getLastD_concat]
    rw [show commentLineOf r :: (pySplitlines r.text ++ [ticksOf r]) =
        (commentLineOf r :: pySplitlines r.text) ++ [ticksOf r] from by simp,
      List.getLast?_concat]
    rfl
  rw [hassoc]
  show (match parseStep ("{}".data) .below false prev (openLineOf r)
      ((commentLineOf r :: pySplitlines r.text) ++ (ticksOf r :: [] :: docRest))
      acc m false with
    | none => none
    | some st =>
        parseLoop ("{}".data) .below false (fuel + 1) st.prev st.rest st.acc
          st.missing st.unclosed) = _
  rw [hstep1]
  show (match parseStep ("{}".data) .below false (some (ticksOf r)) [] docRest
      (acc ++ [⟨parsedTextOf r, r.path⟩]) m false with
    | none => none
    | some st =>
        parseLoop ("{}".data) .below false fuel st.prev st.rest st.acc
          st.missing st.unclosed) = _
  rw [parseStep_nonfence (by decide)]

/-- Scanning the serialization of a good record sequence yields exactly the
records' recovered blocks, in order, with no unclosed flag and no missing
paths. -/
theorem parseLoop_serializeBelow :
    ∀ (rs : List TextFile), (∀ r ∈ rs, goodPath r.path ∧ goodText r.text) →
      ∀ (fuel : Nat) (prev : Option (List Char)) (acc : List TextFile) (m : Nat),
      parseLoop ("{}".data) .below false (2 * rs.length + fuel) prev
        (pySplitlines (serializeBelow rs)) acc m false =
        some (acc ++ rs.map (fun r => ⟨parsedTextOf r, r.path⟩), false, m) := by
  intro rs
  induction rs with
  | nil =>
    intro _ fuel prev acc m
    have h0 : pySplitlines (serializeBelow []) = [] := rfl
    rw [h0]
    simp [parseLoop]
  | cons r rs ih =>
    intro h fuel prev acc m
    have hr := h r (by simp)
    have hrs := fun x hx => h x (List.mem_cons_of_mem _ hx)
    have hdoc : pySplitlines (serializeBelow (r :: rs)) =
        blockLinesOf r ++ pySplitlines (serializeBelow rs) := by
      rw [pySplitlines_serializeBelow _ h]
      simp only [List.map_cons, List.foldr_cons]
      rw [← pySplitlines_serializeBelow rs hrs]
    have harith : 2 * (r :: rs).length + fuel = (2 * rs.length + fuel) + 2 := by
      rw [List.length_cons]
      omega
    rw [hdoc, harith, parse_block_step hr.1 hr.2 _ _ _ _ _,
      ih hrs fuel (some [])
        (acc ++ [(⟨parsedTextOf r, r.path⟩ : TextFile)]) m]
    simp

/-- Claim C1 (amended): below-mode round trip.  For every ordered sequence
of records with non-empty, strip-stable, boundary-free paths and
LF-terminated texts that use LF as their only line boundary and do not open
with a three-backtick run, parsing the below-mode serialization succeeds
with no unclosed flag and yields the same ordered records: the paths are
recovered exactly, and the texts are recovered up to trailing-newline
normalization. -/
theorem round_trip_below (rs : List TextFile)
    (h : ∀ r ∈ rs, goodPath r.path ∧ goodText r.text) :
    defaultParse (serializeBelow rs) ("{}".data) .below false =
      some ⟨rs.map (fun r => ⟨parsedTextOf r, r.path⟩), false⟩ ∧
    rs.map (fun r => normNl (parsedTextOf r)) = rs.map (fun r => normNl r.text) := by
  constructor
  · have hfull : defaultParseFull (serializeBelow rs) ("{}".data) .below false =
        some (rs.map (fun r => ⟨parsedTextOf r, r.path⟩), false, 0) := by
      rw [defaultParseFull]
      rw [parseLoop_fuel ("{}".data) .below false _
        (2 * rs.length + (pySplitlines (serializeBelow rs)).length) _
        (le_refl _) (Nat.le_add_left _ _)]
      rw [parseLoop_serializeBelow rs h _ none [] 0]
      simp
    rw [defaultParse, hfull]
  · exact List.map_congr_left (fun r hr => normNl_parsedTextOf (h r hr).2)

/-- Witness for the amended round-trip theorem on two concrete records (the
repository's own example pair). -/
theorem round_trip_below_witness :
    (∀ r ∈ ([⟨"x = 1\n".data, "out.py".data⟩,
        ⟨"let x = 1;\n".data, "out.rs".data⟩] : List TextFile),
      goodPath r.path ∧ goodText r.text) ∧
    defaultParse (serializeBelow [⟨"x = 1\n".data, "out.py".data⟩,
        ⟨"let x = 1;\n".data, "out.rs".data⟩]) ("{}".data) .below false =
      some ⟨[⟨"x = 1\n".data, "out.py".data⟩,
        ⟨"let x = 1;\n".data, "out.rs".data⟩].map
          (fun r => ⟨parsedTextOf r, r.path⟩), false⟩ :=
  ⟨by decide, (round_trip_below _ (by decide)).1⟩

end Dir2md
